import Mathlib

/-!
Verification development for the simulated IQ capture toolkit.

Shallow embedding of `tools/simulated_iq_generator.py` (the synthesis engine)
and `tools/orchestrater.py` (the run orchestrator).  Machine floats are
idealised as real numbers, complex IQ samples as elements of `ℂ`; the seeded
pseudo-random generator is abstracted as a function from seed and draw index
to a complex draw.  Fallible stages return `Except`.
-/

namespace IQSim

/-- Python `int(x)` applied to a float: truncation toward zero. -/
noncomputable def pytrunc (x : ℝ) : ℤ := if 0 ≤ x then ⌊x⌋ else ⌈x⌉

/-- Effective index of a Python/NumPy slice endpoint `i` for an array of
length `n`: a negative endpoint counts from the end of the array, and the
result is clamped to `[0, n]`. -/
def pySliceIdx (n : ℕ) (i : ℤ) : ℕ := min n (if i < 0 then i + (n : ℤ) else i).toNat

/-- The literal string `simulated` (manifest capture mode). -/
def modeSimulated : String := "simulated"

/-- The literal string `1` (the affirmative override value). -/
def envOn : String := "1"

/-- The literal string `0` (default for the unset override variable). -/
def envOff : String := "0"

/-- The fixed safety-reminder note written into the generator sidecar. -/
def safetyNote : String := "Simulated IQ for safe, in-cage or offline analysis only. Do not transmit."

/-- Engine-facing signal specification: the parsed command-line arguments of
`simulated_iq_generator.py` (`--duration --samplerate --tones --noise --burst
--out --seed`), with the tone and burst strings already parsed to numbers. -/
structure SigSpec where
  duration : ℝ
  samplerate : ℝ
  tones : List (ℝ × ℝ)
  noise : ℝ
  burst : Option (ℝ × ℝ × ℝ)
  seed : ℕ
  out : String

/-- Sample instant of index `i`: `t = np.arange(n) / sr` gives `t[i] = i / sr`. -/
noncomputable def tIdx (sr : ℝ) (i : ℕ) : ℝ := (i : ℝ) / sr

/-- Source `mk_tone(freq, amp, samplerate, t)`: returns
`amp * np.exp(2j * np.pi * freq * t)`; the samplerate argument is unused,
exactly as in the source. -/
noncomputable def mk_tone (freq amp : ℝ) (_sr : ℝ) (ti : ℝ) : ℂ :=
  (amp : ℂ) * Complex.exp (2 * Complex.I * (Real.pi : ℂ) * (freq : ℂ) * (ti : ℂ))

/-- Source `mk_noise(sigma, size)`: `sigma * (normal + 1j * normal)` drawn from
the seeded generator.  The generator algorithm is abstracted as
`G : seed → index → ℂ`, standing for the standard-normal complex draw stream
obtained after `np.random.seed(seed)`. -/
noncomputable def mk_noise (G : ℕ → ℕ → ℂ) (seed : ℕ) (sigma : ℝ) (i : ℕ) : ℂ :=
  (sigma : ℂ) * G seed i

/-- Source `mk_burst(t, samplerate, burst_start, burst_dur, burst_rate,
tone_freq, amp)`: a length-`n` array that is zero outside the slice
`[start_idx : end_idx]` (NumPy slice semantics, including negative index
wrap-around) and holds the burst waveform inside it. -/
noncomputable def mk_burst (n : ℕ) (sr bs bd br tf amp : ℝ) : ℕ → ℂ :=
  let start_idx := pytrunc (bs * sr)
  let dur_idx := pytrunc (bd * sr)
  if start_idx < (n : ℤ) then
    let end_idx := min (n : ℤ) (start_idx + dur_idx)
    let a := pySliceIdx n start_idx
    let b := pySliceIdx n end_idx
    fun i =>
      if a ≤ i ∧ i < b then
        if tf = 0 then (amp : ℂ) * Complex.exp (2 * Complex.I * (Real.pi : ℂ) * (br : ℂ) * (tIdx sr i : ℂ))
        else mk_tone tf amp sr (tIdx sr i)
      else 0
  else fun _ => 0

/-- Sum of the tone contributions at sample index `i`
(the loop `for freq, amp in tones: iq += mk_tone(freq, amp, sr, t)`). -/
noncomputable def toneSum (spec : SigSpec) (i : ℕ) : ℂ :=
  (spec.tones.map (fun p => mk_tone p.1 p.2 spec.samplerate (tIdx spec.samplerate i))).sum

/-- Noise contribution at index `i`
(`if args.noise and args.noise > 0: iq += mk_noise(args.noise, n)`). -/
noncomputable def noiseTerm (G : ℕ → ℕ → ℂ) (spec : SigSpec) (i : ℕ) : ℂ :=
  if spec.noise > 0 then mk_noise G spec.seed spec.noise i else 0

/-- Burst contribution at index `i`
(`if args.burst: ... iq += mk_burst(t, sr, burst_start, burst_dur, burst_rate)`;
the call leaves `tone_freq = 0.0` and `amp = 1.0` at their defaults). -/
noncomputable def burstTerm (spec : SigSpec) (n i : ℕ) : ℂ :=
  match spec.burst with
  | none => 0
  | some (bs, bd, br) => mk_burst n spec.samplerate bs bd br 0 1 i

/-- The accumulator value at index `i` before normalization:
tones summed, then noise added, then the burst array added. -/
noncomputable def preNorm (G : ℕ → ℕ → ℂ) (spec : SigSpec) (n i : ℕ) : ℂ :=
  toneSum spec i + noiseTerm G spec i + burstTerm spec n i

/-- Sample count `n = int(np.ceil(args.duration * sr))`. -/
noncomputable def numSamples (spec : SigSpec) : ℤ :=
  ⌈spec.duration * spec.samplerate⌉

/-- The accumulator as a list (`iq` after all components are mixed in). -/
noncomputable def rawSamples (G : ℕ → ℕ → ℂ) (spec : SigSpec) : List ℂ :=
  (List.range (numSamples spec).toNat).map (preNorm G spec (numSamples spec).toNat)

/-- Peak sample magnitude `np.max(np.abs(iq))` (zero for an empty sequence). -/
noncomputable def peak (l : List ℂ) : ℝ :=
  (l.map Complex.abs).foldr max 0

open Classical in
/-- Source `max_amp = np.max(np.abs(iq)) if np.any(iq) else 1.0`. -/
noncomputable def maxAmp (l : List ℂ) : ℝ :=
  if ∃ z ∈ l, z ≠ 0 then peak l else 1

/-- The amplitude limiter: `if max_amp > 1.0: iq = iq / max_amp`. -/
noncomputable def normalizeStep (l : List ℂ) : List ℂ :=
  if 1 < maxAmp l then l.map (fun z => z / ((maxAmp l : ℝ) : ℂ)) else l

/-- Failure modes of the synthesis pipeline.  `negativeDimension` is the
error NumPy raises from `np.zeros(n)` when `n` is negative; the engine has
no validation of its own. -/
inductive GenError where
  | negativeDimension
deriving DecidableEq

/-- The synthesis pipeline of `main` in `simulated_iq_generator.py`, up to the
in-memory sample sequence: allocate `n` samples (failing when `n` is
negative), mix tones, noise and burst, then apply the amplitude limiter. -/
noncomputable def synthesize (G : ℕ → ℕ → ℂ) (spec : SigSpec) : Except GenError (List ℂ) :=
  if numSamples spec < 0 then Except.error GenError.negativeDimension
  else Except.ok (normalizeStep (rawSamples G spec))

/-- The JSON metadata sidecar written next to the artifact. -/
structure Sidecar where
  generated_at : String
  duration_s : ℝ
  samplerate_hz : ℝ
  tones : List (ℝ × ℝ)
  noise_sigma : ℝ
  burst_spec : Option (ℝ × ℝ × ℝ)
  seed : ℕ
  file : String
  note : String

/-- The sidecar record built by `main` (`meta = {...}`); `now` is the value of
`datetime.utcnow().isoformat()`. -/
noncomputable def mkSidecar (spec : SigSpec) (now : String) : Sidecar :=
  ⟨now, spec.duration, spec.samplerate, spec.tones, spec.noise, spec.burst, spec.seed, spec.out, safetyNote⟩

/-- One full generator invocation: the synthesized sample sequence paired with
its sidecar, or the synthesis error. -/
noncomputable def runSynth (G : ℕ → ℕ → ℂ) (spec : SigSpec) (now : String) :
    Except GenError (List ℂ × Sidecar) :=
  (synthesize G spec).map (fun l => (l, mkSidecar spec now))

/-- The timestamp-free part of a sidecar: every field except `generated_at`. -/
structure SidecarData where
  duration_s : ℝ
  samplerate_hz : ℝ
  tones : List (ℝ × ℝ)
  noise_sigma : ℝ
  burst_spec : Option (ℝ × ℝ × ℝ)
  seed : ℕ
  file : String
  note : String

/-- Project a sidecar onto its timestamp-free fields. -/
def Sidecar.data (s : Sidecar) : SidecarData :=
  ⟨s.duration_s, s.samplerate_hz, s.tones, s.noise_sigma, s.burst_spec, s.seed, s.file, s.note⟩

/-- Element `k` of the interleaved float32 artifact
(`interleaved[0::2] = iq_i; interleaved[1::2] = iq_q`): even positions hold
real parts, odd positions hold imaginary parts. -/
noncomputable def interleavedAt (l : List ℂ) (k : ℕ) : ℝ :=
  if k % 2 = 0 then (l.getD (k / 2) 0).re else (l.getD (k / 2) 0).im

/-- Length of the interleaved artifact (`iq_i.size + iq_q.size`). -/
def interleavedLen (l : List ℂ) : ℕ := 2 * l.length

/-- De-interleaving, modelled from the spec: read the interleaved artifact
back as (I, Q) pairs, pair `j` being `(interleaved[2j], interleaved[2j+1])`. -/
noncomputable def deinterleaved (l : List ℂ) (j : ℕ) : ℂ :=
  ⟨interleavedAt l (2 * j), interleavedAt l (2 * j + 1)⟩

/-- A tone entry of the manifest `stimulus.tones` list. -/
structure MTone where
  freq_hz : ℝ
  amp : Option ℝ

/-- A manifest `stimulus.burst` mapping. -/
structure MBurst where
  start_s : Option ℝ
  duration_s : Option ℝ
  burst_rate_hz : Option ℝ

/-- The experiment manifest fields read by the orchestrator. -/
structure Manifest where
  experiment_id : String
  mode : Option String
  duration_s : ℝ
  samplerate_hz : ℝ
  tones : List MTone
  noise_sigma : Option ℝ
  burst : Option MBurst
  simulated_iq_file : Option String
  created_at : String

/-- The tone list as encoded for the generator command line
(`f-string int(t[freq_hz]) : t.get(amp, 1.0)` joined with commas): frequency
truncated to an integer, amplitude defaulted to `1.0`. -/
noncomputable def deriveTones (ts : List MTone) : List (ℤ × ℝ) :=
  ts.map (fun t => (pytrunc t.freq_hz, t.amp.getD 1))

/-- Terminal outcome of an orchestrator run. -/
inductive Outcome where
  | rejected
  | notImplemented
  | completed
deriving DecidableEq

/-- Filesystem and control effects of one orchestrator invocation. -/
structure RunEffects where
  runDirCreated : Bool
  synthInvoked : Bool
  iqWritten : Bool
  sidecarCopied : Bool
  runMetaWritten : Bool
  outcome : Outcome
deriving DecidableEq

/-- The gate reads `capture_parameters.get(mode, simulated)`. -/
def gateMode (man : Manifest) : String := man.mode.getD modeSimulated

/-- Control flow of `main` in `orchestrater.py`: the run directory is created
(`ensure_dir(out_dir)`), then the safety gate runs; on rejection `main`
returns with nothing else written.  Past the gate, the simulated branch
invokes the generator, copies its sidecar and writes the run metadata, while
any other mode raises `NotImplementedError` before any file is written.
`allowReal` is the environment variable `ALLOW_REAL_CAPTURE` (`none` when
unset; `os.getenv` defaults it to the string zero). -/
def orchestrate (man : Manifest) (allowReal : Option String) : RunEffects :=
  if gateMode man ≠ modeSimulated ∧ allowReal.getD envOff ≠ envOn then
    ⟨true, false, false, false, false, Outcome.rejected⟩
  else if man.mode = some modeSimulated then
    ⟨true, true, true, true, true, Outcome.completed⟩
  else
    ⟨true, false, false, false, false, Outcome.notImplemented⟩

/-- A zero pseudo-random stream, used to instantiate theorems at concrete inputs. -/
def G0 : ℕ → ℕ → ℂ := fun _ _ => 0

/-- A sample experiment identifier. -/
def expId : String := "exp"

/-- A non-simulated capture mode string. -/
def realStr : String := "real"

/-- A sample output filename. -/
def outName : String := "capture.iq"

/-- A concrete manifest requesting a non-simulated capture. -/
noncomputable def man0 : Manifest := ⟨expId, some realStr, 1, 1, [], none, none, none, expId⟩

/-- A concrete specification with zero duration. -/
noncomputable def zeroSpec : SigSpec := ⟨0, 2000000, [], 0, none, 0, outName⟩

/-- A concrete valid specification: one second at three samples per second. -/
noncomputable def spec1 : SigSpec := ⟨1, 3, [], 0, none, 0, outName⟩

/-- A concrete specification whose burst window overlaps a nonzero tone:
half a second at two samples per second, a single zero-frequency tone of
amplitude minus one half, and a burst covering the whole sequence. -/
noncomputable def cexSpec : SigSpec := ⟨1/2, 2, [(0, -(1/2))], 0, some (0, 1/2, 0), 0, outName⟩

/-- A concrete specification with a burst and no tones or noise. -/
noncomputable def spec2 : SigSpec := ⟨1/2, 2, [], 0, some (0, 1/2, 0), 0, outName⟩

/-- A concrete manifest tone list with a fractional frequency. -/
noncomputable def ts0 : List MTone := [⟨7/2, none⟩]

/-! ## Helper lemmas -/

theorem pytrunc_intCast (z : ℤ) : pytrunc ((z : ℤ) : ℝ) = z := by
  unfold pytrunc
  split <;> simp

theorem pytrunc_abs_le (x : ℝ) : |((pytrunc x : ℤ) : ℝ)| ≤ |x| := by
  unfold pytrunc
  split
  · rename_i hx
    rw [abs_of_nonneg hx, abs_of_nonneg (by exact_mod_cast Int.floor_nonneg.2 hx)]
    exact Int.floor_le x
  · rename_i hx
    have hx0 : x ≤ 0 := (not_le.1 hx).le
    have hc : ((⌈x⌉ : ℤ) : ℝ) ≤ 0 := by
      have hz : ⌈x⌉ ≤ (0 : ℤ) := Int.ceil_le.2 (by exact_mod_cast hx0)
      exact_mod_cast hz
    rw [abs_of_nonpos hx0, abs_of_nonpos hc, neg_le_neg_iff]
    exact Int.le_ceil x

theorem pytrunc_dist_lt (x : ℝ) : |x - ((pytrunc x : ℤ) : ℝ)| < 1 := by
  unfold pytrunc
  split
  · rw [abs_of_nonneg (sub_nonneg.2 (Int.floor_le x))]
    have := Int.lt_floor_add_one x
    linarith
  · rw [abs_of_nonpos (sub_nonpos.2 (Int.le_ceil x))]
    have := Int.ceil_lt_add_one x
    linarith

theorem pytrunc_ne_of_fract (x : ℝ) (h : Int.fract x ≠ 0) :
    ((pytrunc x : ℤ) : ℝ) ≠ x := by
  unfold pytrunc
  split
  · intro heq
    refine h ?_
    unfold Int.fract
    exact sub_eq_zero_of_eq heq.symm
  · intro heq
    exact h (by rw [← heq, Int.fract_intCast])

theorem pySliceIdx_le (n : ℕ) (i : ℤ) : pySliceIdx n i ≤ n := min_le_left _ _

theorem pySliceIdx_of_nonneg (n : ℕ) (i : ℤ) (h : 0 ≤ i) :
    (pySliceIdx n i : ℤ) = min (n : ℤ) i := by
  unfold pySliceIdx
  rw [if_neg (not_lt.2 h)]
  rw [Nat.cast_min, Int.toNat_of_nonneg h]

theorem peak_nil : peak [] = 0 := rfl

theorem peak_cons (z : ℂ) (l : List ℂ) :
    peak (z :: l) = max (Complex.abs z) (peak l) := rfl

theorem peak_nonneg (l : List ℂ) : 0 ≤ peak l := by
  induction l with
  | nil => simp [peak_nil]
  | cons z l ih => rw [peak_cons]; exact le_trans ih (le_max_right _ _)

theorem abs_le_peak (l : List ℂ) (z : ℂ) (hz : z ∈ l) : Complex.abs z ≤ peak l := by
  induction l with
  | nil => cases hz
  | cons w l ih =>
      rw [peak_cons]
      rcases List.mem_cons.1 hz with h | h
      · subst h; exact le_max_left _ _
      · exact le_trans (ih h) (le_max_right _ _)

theorem exists_ne_zero_of_one_lt_peak (l : List ℂ) (h : 1 < peak l) :
    ∃ z ∈ l, z ≠ 0 := by
  induction l with
  | nil => simp [peak_nil] at h; linarith
  | cons w l ih =>
      rw [peak_cons] at h
      rcases lt_max_iff.1 h with h1 | h1
      · refine ⟨w, List.mem_cons_self _ _, ?_⟩
        intro hw
        rw [hw] at h1
        simp at h1
        linarith
      · obtain ⟨z, hz, hz0⟩ := ih h1
        exact ⟨z, List.mem_cons_of_mem _ hz, hz0⟩

theorem maxAmp_of_one_lt_peak (l : List ℂ) (h : 1 < peak l) : maxAmp l = peak l := by
  unfold maxAmp
  rw [if_pos (exists_ne_zero_of_one_lt_peak l h)]

theorem maxAmp_le_one_of_peak_le_one (l : List ℂ) (h : peak l ≤ 1) : maxAmp l ≤ 1 := by
  unfold maxAmp
  split
  · exact h
  · exact le_refl 1

theorem peak_map_div (l : List ℂ) (c : ℝ) (hc : 0 < c) :
    peak (l.map (fun z => z / ((c : ℝ) : ℂ))) = peak l / c := by
  induction l with
  | nil => simp [peak_nil]
  | cons w l ih =>
      rw [List.map_cons, peak_cons, peak_cons, ih]
      have habs : Complex.abs (w / ((c : ℝ) : ℂ)) = Complex.abs w / c := by
        rw [map_div₀, Complex.abs_ofReal, abs_of_pos hc]
      rw [habs, max_div_div_right hc.le]

theorem normalizeStep_length (l : List ℂ) : (normalizeStep l).length = l.length := by
  unfold normalizeStep
  split <;> simp

theorem mk_burst_eq_zero_of_notin (n : ℕ) (sr bs bd br tf amp : ℝ) (i : ℕ)
    (h : pytrunc (bs * sr) < (n : ℤ) →
      ¬(pySliceIdx n (pytrunc (bs * sr)) ≤ i ∧
        i < pySliceIdx n (min (n : ℤ) (pytrunc (bs * sr) + pytrunc (bd * sr))))) :
    mk_burst n sr bs bd br tf amp i = 0 := by
  simp only [mk_burst, ite_apply]
  by_cases hlt : pytrunc (bs * sr) < (n : ℤ)
  · rw [if_pos hlt, if_neg (h hlt)]
  · rw [if_neg hlt]

/-! ## Claim theorems -/

/-- C2: for a manifest whose capture mode is present and differs from the
literal string simulated, the orchestrator rejects the run when the override
variable does not equal the literal one — no synthesis, no run-metadata file —
and with the override set to one it passes the gate and then stops fatally on
the not-implemented real-capture branch, producing no IQ artifact. -/
theorem gate_enforcement (man : Manifest) (m : String) (allow : Option String)
    (hm : man.mode = some m) (hne : m ≠ modeSimulated) :
    (allow.getD envOff ≠ envOn →
        orchestrate man allow = ⟨true, false, false, false, false, Outcome.rejected⟩) ∧
    (allow = some envOn →
        orchestrate man allow = ⟨true, false, false, false, false, Outcome.notImplemented⟩) := by
  constructor
  · intro ha
    have hg : gateMode man ≠ modeSimulated := by
      simp [gateMode, hm]
      exact hne
    rw [orchestrate, if_pos ⟨hg, ha⟩]
  · intro ha
    subst ha
    have hgate : ¬(gateMode man ≠ modeSimulated ∧ (Option.getD (some envOn) envOff ≠ envOn)) := by
      simp
    have hm2 : ¬(man.mode = some modeSimulated) := by
      rw [hm]
      simp
      exact hne
    rw [orchestrate, if_neg hgate, if_neg hm2]

/-- Witness for C2 at a concrete manifest with mode set to the string real. -/
theorem gate_enforcement_witness :
    orchestrate man0 none = ⟨true, false, false, false, false, Outcome.rejected⟩ ∧
    orchestrate man0 (some envOn) = ⟨true, false, false, false, false, Outcome.notImplemented⟩ :=
  ⟨(gate_enforcement man0 realStr none rfl (by decide)).1 (by decide),
   (gate_enforcement man0 realStr (some envOn) rfl (by decide)).2 rfl⟩

/-- C9: for every run rejected by the safety gate, the run directory has
already been created before the gate, and nothing else is done: no synthesis,
no IQ artifact, no sidecar copy and no run-metadata file. -/
theorem rejected_run_dir (man : Manifest) (allow : Option String)
    (hg : gateMode man ≠ modeSimulated) (ha : allow.getD envOff ≠ envOn) :
    (orchestrate man allow).runDirCreated = true ∧
    (orchestrate man allow).synthInvoked = false ∧
    (orchestrate man allow).iqWritten = false ∧
    (orchestrate man allow).sidecarCopied = false ∧
    (orchestrate man allow).runMetaWritten = false := by
  rw [orchestrate, if_pos ⟨hg, ha⟩]
  exact ⟨rfl, rfl, rfl, rfl, rfl⟩

/-- Witness for C9 at a concrete manifest with mode set to the string real
and the override variable unset. -/
theorem rejected_run_dir_witness :
    (orchestrate man0 none).runDirCreated = true ∧
    (orchestrate man0 none).synthInvoked = false ∧
    (orchestrate man0 none).iqWritten = false ∧
    (orchestrate man0 none).sidecarCopied = false ∧
    (orchestrate man0 none).runMetaWritten = false :=
  rejected_run_dir man0 none (by decide) (by decide)

/-- C4: two generator invocations with the same specification, seed and
pseudo-random stream produce identical sample sequences, and sidecar records
identical in every field except the generation timestamp; the timestamp never
influences the artifact. -/
theorem determinism (G : ℕ → ℕ → ℂ) (spec : SigSpec) (ts1 ts2 : String) :
    (runSynth G spec ts1).map Prod.fst = (runSynth G spec ts2).map Prod.fst ∧
    (runSynth G spec ts1).map (fun p => p.2.data) =
      (runSynth G spec ts2).map (fun p => p.2.data) := by
  cases h : synthesize G spec <;>
    simp [runSynth, h, Except.map, Sidecar.data, mkSidecar]

/-- C7: de-interleaving the interleaved float artifact reconstructs the
in-memory complex sequence: pair `j` of the artifact equals sample `j`, and
the artifact holds exactly two floats per sample. -/
theorem interleave_roundtrip (l : List ℂ) (j : ℕ) (hj : j < l.length) :
    deinterleaved l j = l.getD j 0 ∧ interleavedLen l = 2 * l.length := by
  refine ⟨?_, rfl⟩
  unfold deinterleaved interleavedAt
  have h1 : 2 * j % 2 = 0 := by omega
  have h2 : 2 * j / 2 = j := by omega
  have h3 : (2 * j + 1) % 2 = 1 := by omega
  have h4 : (2 * j + 1) / 2 = j := by omega
  rw [h1, h2, h3, h4]
  simp

/-- Witness for C7 at the one-sample sequence with real part one and
imaginary part two. -/
theorem interleave_roundtrip_witness :
    deinterleaved [⟨1, 2⟩] 0 = (⟨1, 2⟩ : ℂ) ∧ interleavedLen [(⟨1, 2⟩ : ℂ)] = 2 :=
  ⟨((interleave_roundtrip [⟨1, 2⟩] 0 (by simp)).1).trans (by simp),
   by simpa using (interleave_roundtrip [⟨1, 2⟩] 0 (by simp)).2⟩

/-- C5: after the amplitude limiter, every sample magnitude is at most one;
when the pre-normalization peak exceeded one the output peak is exactly one
and the output is the input scaled by one global division by the peak; when
the pre-normalization peak is at most one the sequence is left unscaled. -/
theorem normalization_invariant (l : List ℂ) :
    (∀ z ∈ normalizeStep l, Complex.abs z ≤ 1) ∧
    (1 < peak l → peak (normalizeStep l) = 1) ∧
    (peak l ≤ 1 → normalizeStep l = l) ∧
    (1 < peak l → normalizeStep l = l.map (fun z => z / ((peak l : ℝ) : ℂ))) := by
  by_cases hp : 1 < peak l
  · have hpos : 0 < peak l := lt_trans one_pos hp
    have hm : maxAmp l = peak l := maxAmp_of_one_lt_peak l hp
    have hstep : normalizeStep l = l.map (fun z => z / ((peak l : ℝ) : ℂ)) := by
      unfold normalizeStep
      rw [hm, if_pos hp]
    refine ⟨?_, fun _ => ?_, fun hle => absurd hle (not_le.2 hp), fun _ => hstep⟩
    · intro z hz
      rw [hstep] at hz
      obtain ⟨w, hw, rfl⟩ := List.mem_map.1 hz
      rw [map_div₀, Complex.abs_ofReal, abs_of_pos hpos]
      rw [div_le_one hpos]
      exact abs_le_peak l w hw
    · rw [hstep, peak_map_div l (peak l) hpos, div_self (ne_of_gt hpos)]
  · have hle : peak l ≤ 1 := not_lt.1 hp
    have hstep : normalizeStep l = l := by
      unfold normalizeStep
      rw [if_neg (not_lt.2 (maxAmp_le_one_of_peak_le_one l hle))]
    refine ⟨?_, fun h => absurd h hp, fun _ => hstep, fun h => absurd h hp⟩
    intro z hz
    rw [hstep] at hz
    exact le_trans (abs_le_peak l z hz) hle

/-- Witness for C5 at the one-sample sequence holding the real number two. -/
theorem normalization_invariant_witness :
    1 < peak [(2 : ℂ)] ∧ peak (normalizeStep [(2 : ℂ)]) = 1 := by
  have h2 : peak [(2 : ℂ)] = 2 := by
    rw [peak_cons, peak_nil, Complex.abs_two]
    norm_num
  exact ⟨by rw [h2]; norm_num,
    (normalization_invariant [(2 : ℂ)]).2.1 (by rw [h2]; norm_num)⟩

/-- C6: for positive duration and sample rate, synthesis succeeds and the
sample sequence has exactly the ceiling of duration times sample rate
many samples. -/
theorem length_invariant (G : ℕ → ℕ → ℂ) (spec : SigSpec)
    (hd : 0 < spec.duration) (hs : 0 < spec.samplerate) :
    ∃ l, synthesize G spec = Except.ok l ∧
      (l.length : ℤ) = ⌈spec.duration * spec.samplerate⌉ := by
  have hpos : 0 < spec.duration * spec.samplerate := mul_pos hd hs
  have hnn : (0 : ℤ) ≤ numSamples spec := by
    unfold numSamples
    exact Int.ceil_nonneg hpos.le
  have hne : ¬(numSamples spec < 0) := not_lt.2 hnn
  refine ⟨normalizeStep (rawSamples G spec), ?_, ?_⟩
  · unfold synthesize
    rw [if_neg hne]
  · rw [normalizeStep_length]
    unfold rawSamples
    rw [List.length_map, List.length_range]
    rw [Int.toNat_of_nonneg hnn]
    rfl

/-- Witness for C6 at one second of three samples per second: three samples. -/
theorem length_invariant_witness :
    ∃ l, synthesize G0 spec1 = Except.ok l ∧
      (l.length : ℤ) = ⌈spec1.duration * spec1.samplerate⌉ :=
  length_invariant G0 spec1 (by norm_num [spec1]) (by norm_num [spec1])

/-- C3 counterexample: a specification with non-positive duration on which
the engine completes successfully (with an empty artifact) instead of failing
with an invalid-specification error. -/
theorem invalid_spec_cex :
    zeroSpec.duration ≤ 0 ∧ synthesize G0 zeroSpec = Except.ok [] := by
  constructor
  · norm_num [zeroSpec]
  · have h0 : numSamples zeroSpec = 0 := by
      unfold numSamples
      norm_num [zeroSpec]
    unfold synthesize
    rw [if_neg (by rw [h0]; exact lt_irrefl 0)]
    have hraw : rawSamples G0 zeroSpec = [] := by
      unfold rawSamples
      rw [h0]
      rfl
    rw [hraw]
    unfold normalizeStep
    rw [if_neg ?_]
    have hm : maxAmp ([] : List ℂ) = 1 := by
      unfold maxAmp
      rw [if_neg (by simp)]
    rw [hm]
    exact lt_irrefl 1

/-- C3 amended: the engine performs no specification validation; it fails
(with the negative-dimension error of the array allocation, there being no
invalid-specification error in the code) exactly when the ceiling of duration
times sample rate is negative, and otherwise completes, so a zero duration
yields a successful empty synthesis rather than an error. -/
theorem synthesis_error_iff (G : ℕ → ℕ → ℂ) (spec : SigSpec) :
    synthesize G spec = Except.error GenError.negativeDimension ↔
      ⌈spec.duration * spec.samplerate⌉ < 0 := by
  unfold synthesize numSamples
  split
  · rename_i h
    simpa using h
  · rename_i h
    constructor
    · intro hcontra
      exact absurd hcontra (by simp)
    · intro hlt
      exact absurd hlt h

/-- Witness for C3 amended: at negative duration times positive rate the
engine fails with the negative-dimension error. -/
theorem synthesis_error_iff_witness :
    synthesize G0 ⟨-1, 2, [], 0, none, 0, outName⟩ = Except.error GenError.negativeDimension :=
  (synthesis_error_iff G0 ⟨-1, 2, [], 0, none, 0, outName⟩).2 (by
    have hcast : ((-1 : ℝ)) * 2 = (((-2 : ℤ) : ℤ) : ℝ) := by norm_num
    rw [show (⟨-1, 2, [], 0, none, 0, outName⟩ : SigSpec).duration = (-1 : ℝ) from rfl,
      show (⟨-1, 2, [], 0, none, 0, outName⟩ : SigSpec).samplerate = (2 : ℝ) from rfl,
      hcast, Int.ceil_intCast]
    norm_num)

/-- C10: the orchestrator encodes each manifest tone for the generator by
truncating the frequency toward zero — the encoded frequency is no farther
from zero than the original, within distance one of it, and differs from it
whenever the original has a nonzero fractional part — while the amplitude is
passed through unchanged, defaulting to one when absent. -/
theorem tone_encoding (ts : List MTone) (i : ℕ) (hi : i < ts.length) :
    (deriveTones ts).length = ts.length ∧
    ((deriveTones ts).getD i (0, 0)).2 = (ts.getD i ⟨0, none⟩).amp.getD 1 ∧
    |((((deriveTones ts).getD i (0, 0)).1 : ℤ) : ℝ)| ≤ |(ts.getD i ⟨0, none⟩).freq_hz| ∧
    |(ts.getD i ⟨0, none⟩).freq_hz - ((((deriveTones ts).getD i (0, 0)).1 : ℤ) : ℝ)| < 1 ∧
    (Int.fract (ts.getD i ⟨0, none⟩).freq_hz ≠ 0 →
      ((((deriveTones ts).getD i (0, 0)).1 : ℤ) : ℝ) ≠ (ts.getD i ⟨0, none⟩).freq_hz) := by
  have hlen : (deriveTones ts).length = ts.length := by
    unfold deriveTones
    exact List.length_map _ _
  have hi2 : i < (deriveTones ts).length := by rw [hlen]; exact hi
  have hd : (deriveTones ts).getD i (0, 0) =
      (pytrunc (ts.getD i ⟨0, none⟩).freq_hz, (ts.getD i ⟨0, none⟩).amp.getD 1) := by
    rw [List.getD_eq_getElem _ _ hi2, List.getD_eq_getElem _ _ hi]
    unfold deriveTones
    rw [List.getElem_map]
  rw [hd]
  exact ⟨hlen, rfl, pytrunc_abs_le _, pytrunc_dist_lt _, fun h => pytrunc_ne_of_fract _ h⟩

/-- Witness for C10 at the fractional frequency seven halves: the encoded
frequency differs from the manifest one, and the absent amplitude becomes
one. -/
theorem tone_encoding_witness :
    ((deriveTones ts0).getD 0 (0, 0)).2 = 1 ∧
    ((((deriveTones ts0).getD 0 (0, 0)).1 : ℤ) : ℝ) ≠ (ts0.getD 0 ⟨0, none⟩).freq_hz := by
  have hfl : ⌊(7 / 2 : ℝ)⌋ = 3 := by
    rw [Int.floor_eq_iff]
    constructor <;> norm_num
  have hfr : Int.fract (ts0.getD 0 ⟨0, none⟩).freq_hz ≠ 0 := by
    have hval : (ts0.getD 0 ⟨0, none⟩).freq_hz = 7 / 2 := by
      simp [ts0]
    rw [hval]
    unfold Int.fract
    rw [hfl]
    norm_num
  exact ⟨(tone_encoding ts0 0 (by simp [ts0])).2.1.trans (by simp [ts0]),
    (tone_encoding ts0 0 (by simp [ts0])).2.2.2.2 hfr⟩

/-- C8 counterexample: a burst with negative start time.  The start index is
minus five and the duration index two, so the window clipped to the sequence
bounds is empty — index five lies outside even the unclipped window — yet the
burst is nonzero at index five, because NumPy interprets negative slice
endpoints as offsets from the end of the array. -/
theorem burst_window_cex :
    mk_burst 10 10 (-(1 / 2)) (1 / 5) 0 0 1 5 = 1 ∧
    ¬(pytrunc ((-(1 / 2) : ℝ) * 10) ≤ (5 : ℤ) ∧
      (5 : ℤ) < pytrunc ((-(1 / 2) : ℝ) * 10) + pytrunc (((1 / 5) : ℝ) * 10)) := by
  have h1 : pytrunc ((-(1 / 2) : ℝ) * 10) = -5 := by
    rw [show ((-(1 / 2) : ℝ) * 10) = (((-5 : ℤ)) : ℝ) by norm_num, pytrunc_intCast]
  have h2 : pytrunc (((1 / 5) : ℝ) * 10) = 2 := by
    rw [show (((1 / 5) : ℝ) * 10) = (((2 : ℤ)) : ℝ) by norm_num, pytrunc_intCast]
  constructor
  · simp only [mk_burst, ite_apply, h1, h2]
    rw [if_pos (by decide : (-5 : ℤ) < ((10 : ℕ) : ℤ))]
    rw [if_pos (by constructor <;> decide :
      pySliceIdx 10 (-5) ≤ 5 ∧ 5 < pySliceIdx 10 (min ((10 : ℕ) : ℤ) (-5 + 2)))]
    rw [if_true]
    simp [Complex.ofReal_zero, Complex.ofReal_one, one_mul, mul_zero, zero_mul,
      Complex.exp_zero]
  · rw [h1, h2]
    omega

/-- C8 amended: provided the start and duration indices are non-negative, the
burst window is clipped to the sequence bounds and applied exactly there — a
start index at or beyond the sequence length contributes nothing, indices at
or beyond the sequence length are never written, the burst vanishes at every
index outside the clipped window, and inside the clipped window it equals the
burst waveform.  (A negative start or duration index is instead interpreted
NumPy-style as an offset from the end of the sequence, still touching only
in-bounds indices.) -/
theorem burst_window_clip (n : ℕ) (sr bs bd br tf amp : ℝ) (i : ℕ)
    (hs : 0 ≤ pytrunc (bs * sr)) (hd : 0 ≤ pytrunc (bd * sr)) :
    ((n : ℤ) ≤ pytrunc (bs * sr) → mk_burst n sr bs bd br tf amp i = 0) ∧
    (n ≤ i → mk_burst n sr bs bd br tf amp i = 0) ∧
    (((i : ℤ) < pytrunc (bs * sr) ∨
        min (n : ℤ) (pytrunc (bs * sr) + pytrunc (bd * sr)) ≤ (i : ℤ)) →
      mk_burst n sr bs bd br tf amp i = 0) ∧
    ((pytrunc (bs * sr) ≤ (i : ℤ) ∧
        (i : ℤ) < min (n : ℤ) (pytrunc (bs * sr) + pytrunc (bd * sr))) →
      mk_burst n sr bs bd br tf amp i =
        if tf = 0 then
          ((amp : ℝ) : ℂ) * Complex.exp (2 * Complex.I * ((Real.pi : ℝ) : ℂ) * ((br : ℝ) : ℂ) *
            ((tIdx sr i : ℝ) : ℂ))
        else mk_tone tf amp sr (tIdx sr i)) := by
  refine ⟨?_, ?_, ?_, ?_⟩
  · intro hge
    apply mk_burst_eq_zero_of_notin
    intro hlt
    exact absurd hlt (not_lt.2 hge)
  · intro hni
    apply mk_burst_eq_zero_of_notin
    intro hlt
    rintro ⟨-, hib⟩
    have hble := pySliceIdx_le n (min (n : ℤ) (pytrunc (bs * sr) + pytrunc (bd * sr)))
    omega
  · intro hout
    apply mk_burst_eq_zero_of_notin
    intro hlt
    rintro ⟨hai, hib⟩
    have hnn : (0 : ℤ) ≤ (n : ℤ) := Int.natCast_nonneg n
    have ha : (pySliceIdx n (pytrunc (bs * sr)) : ℤ) = min (n : ℤ) (pytrunc (bs * sr)) :=
      pySliceIdx_of_nonneg n _ hs
    have he : (0 : ℤ) ≤ min (n : ℤ) (pytrunc (bs * sr) + pytrunc (bd * sr)) :=
      le_min hnn (by omega)
    have hbb : (pySliceIdx n (min (n : ℤ) (pytrunc (bs * sr) + pytrunc (bd * sr))) : ℤ) =
        min (n : ℤ) (min (n : ℤ) (pytrunc (bs * sr) + pytrunc (bd * sr))) :=
      pySliceIdx_of_nonneg n _ he
    have hai2 : (pySliceIdx n (pytrunc (bs * sr)) : ℤ) ≤ (i : ℤ) := by exact_mod_cast hai
    have hib2 : (i : ℤ) <
        (pySliceIdx n (min (n : ℤ) (pytrunc (bs * sr) + pytrunc (bd * sr))) : ℤ) := by
      exact_mod_cast hib
    omega
  · rintro ⟨hsi, hie⟩
    have hnn : (0 : ℤ) ≤ (n : ℤ) := Int.natCast_nonneg n
    have hin2 : (i : ℤ) < (n : ℤ) := lt_of_lt_of_le hie (min_le_left _ _)
    have hlt : pytrunc (bs * sr) < (n : ℤ) := lt_of_le_of_lt hsi hin2
    have ha : (pySliceIdx n (pytrunc (bs * sr)) : ℤ) = min (n : ℤ) (pytrunc (bs * sr)) :=
      pySliceIdx_of_nonneg n _ hs
    have he : (0 : ℤ) ≤ min (n : ℤ) (pytrunc (bs * sr) + pytrunc (bd * sr)) :=
      le_min hnn (by omega)
    have hbb : (pySliceIdx n (min (n : ℤ) (pytrunc (bs * sr) + pytrunc (bd * sr))) : ℤ) =
        min (n : ℤ) (min (n : ℤ) (pytrunc (bs * sr) + pytrunc (bd * sr))) :=
      pySliceIdx_of_nonneg n _ he
    have hwin : pySliceIdx n (pytrunc (bs * sr)) ≤ i ∧
        i < pySliceIdx n (min (n : ℤ) (pytrunc (bs * sr) + pytrunc (bd * sr))) := by
      constructor
      · have hcast : (pySliceIdx n (pytrunc (bs * sr)) : ℤ) ≤ (i : ℤ) := by omega
        exact_mod_cast hcast
      · have hcast : (i : ℤ) <
            (pySliceIdx n (min (n : ℤ) (pytrunc (bs * sr) + pytrunc (bd * sr))) : ℤ) := by
          omega
        exact_mod_cast hcast
    simp only [mk_burst, ite_apply]
    rw [if_pos hlt, if_pos hwin]

/-- Witness for C8 amended: a burst with start index zero and duration index
two in a four-sample sequence vanishes at index three, at or past the end of
the clipped window, and holds the burst waveform (one, at time zero and rate
five) at index zero, inside the clipped window. -/
theorem burst_window_clip_witness :
    mk_burst 4 4 0 (1 / 2) 5 0 1 3 = 0 ∧ mk_burst 4 4 0 (1 / 2) 5 0 1 0 = 1 := by
  have h1 : pytrunc ((0 : ℝ) * 4) = 0 := by
    rw [show ((0 : ℝ) * 4) = (((0 : ℤ)) : ℝ) by norm_num, pytrunc_intCast]
  have h2 : pytrunc ((1 / 2 : ℝ) * 4) = 2 := by
    rw [show ((1 / 2 : ℝ) * 4) = (((2 : ℤ)) : ℝ) by norm_num, pytrunc_intCast]
  constructor
  · exact (burst_window_clip 4 4 0 (1 / 2) 5 0 1 3
        (by rw [h1]) (by rw [h2]; decide)).2.2.1
      (Or.inr (by rw [h1, h2]; decide))
  · have hv := (burst_window_clip 4 4 0 (1 / 2) 5 0 1 0
        (by rw [h1]) (by rw [h2]; decide)).2.2.2
      ⟨by rw [h1]; decide, by rw [h1, h2]; decide⟩
    rw [hv, if_pos rfl]
    simp [tIdx, Complex.ofReal_zero, Complex.ofReal_one, one_mul, mul_zero, zero_mul,
      Complex.exp_zero]

/-- C1 counterexample: a specification whose burst window overlaps a nonzero
tone.  The output sample at index zero, which lies inside the burst window,
is one half — the sum of the tone value minus one half and the burst value
one — while the burst waveform alone at that index is one.  The burst
therefore adds to, not overwrites, the tone contribution. -/
theorem burst_overwrite_cex :
    synthesize G0 cexSpec = Except.ok [(1 / 2 : ℂ)] ∧
    mk_burst 1 2 0 (1 / 2) 0 0 1 0 = 1 ∧ (1 / 2 : ℂ) ≠ 1 := by
  have h0 : pytrunc ((0 : ℝ) * 2) = 0 := by
    rw [show ((0 : ℝ) * 2) = (((0 : ℤ)) : ℝ) by norm_num, pytrunc_intCast]
  have h1 : pytrunc ((1 / 2 : ℝ) * 2) = 1 := by
    rw [show ((1 / 2 : ℝ) * 2) = (((1 : ℤ)) : ℝ) by norm_num, pytrunc_intCast]
  have hburst : mk_burst 1 2 0 (1 / 2) 0 0 1 0 = 1 := by
    simp only [mk_burst, ite_apply, h0, h1]
    rw [if_pos (by decide : (0 : ℤ) < ((1 : ℕ) : ℤ))]
    rw [if_pos (by constructor <;> decide :
      pySliceIdx 1 0 ≤ 0 ∧ 0 < pySliceIdx 1 (min ((1 : ℕ) : ℤ) (0 + 1)))]
    rw [if_true]
    simp [Complex.ofReal_zero, Complex.ofReal_one, one_mul, mul_zero, zero_mul,
      Complex.exp_zero]
  have htone : toneSum cexSpec 0 = -(1 / 2 : ℂ) := by
    unfold toneSum mk_tone
    simp [cexSpec, Complex.ofReal_zero, mul_zero, zero_mul, Complex.exp_zero]
  have hnoise : noiseTerm G0 cexSpec 0 = 0 := by
    unfold noiseTerm
    rw [if_neg (by norm_num [cexSpec])]
  have hbt : burstTerm cexSpec 1 0 = mk_burst 1 2 0 (1 / 2) 0 0 1 0 := rfl
  have hpre : preNorm G0 cexSpec 1 0 = 1 / 2 := by
    unfold preNorm
    rw [htone, hnoise, hbt, hburst]
    norm_num
  have hn : numSamples cexSpec = 1 := by
    unfold numSamples
    rw [show cexSpec.duration * cexSpec.samplerate = (((1 : ℤ)) : ℝ) by norm_num [cexSpec],
      Int.ceil_intCast]
  have hraw : rawSamples G0 cexSpec = [(1 / 2 : ℂ)] := by
    unfold rawSamples
    rw [hn]
    show (List.range 1).map (preNorm G0 cexSpec 1) = _
    rw [(by decide : List.range 1 = [0]), List.map_cons, List.map_nil, hpre]
  have habs : Complex.abs (1 / 2 : ℂ) = 1 / 2 := by
    rw [map_div₀, map_one, Complex.abs_two]
  have hpk : peak [(1 / 2 : ℂ)] = 1 / 2 := by
    rw [peak_cons, peak_nil, habs]
    norm_num
  have hfin : normalizeStep [(1 / 2 : ℂ)] = [(1 / 2 : ℂ)] := by
    unfold normalizeStep
    rw [if_neg (not_lt.2 (maxAmp_le_one_of_peak_le_one _ (by rw [hpk]; norm_num)))]
  refine ⟨?_, hburst, by norm_num⟩
  unfold synthesize
  rw [if_neg (by rw [hn]; decide), hraw, hfin]

/-- C1 amended: within the burst window the pre-normalization output equals
the tone-plus-noise superposition PLUS the burst complex exponential — the
burst adds to, rather than overwrites, the accumulator — while outside the
window the output equals the tone-plus-noise superposition alone. -/
theorem burst_superposition (G : ℕ → ℕ → ℂ) (spec : SigSpec) (bs bd br : ℝ) (n i : ℕ)
    (hb : spec.burst = some (bs, bd, br))
    (hlt : pytrunc (bs * spec.samplerate) < (n : ℤ))
    (hin : pySliceIdx n (pytrunc (bs * spec.samplerate)) ≤ i ∧
      i < pySliceIdx n (min (n : ℤ)
        (pytrunc (bs * spec.samplerate) + pytrunc (bd * spec.samplerate)))) :
    preNorm G spec n i = toneSum spec i + noiseTerm G spec i +
      Complex.exp (2 * Complex.I * ((Real.pi : ℝ) : ℂ) * ((br : ℝ) : ℂ) *
        ((tIdx spec.samplerate i : ℝ) : ℂ)) ∧
    ∀ j, (j < pySliceIdx n (pytrunc (bs * spec.samplerate)) ∨
        pySliceIdx n (min (n : ℤ)
          (pytrunc (bs * spec.samplerate) + pytrunc (bd * spec.samplerate))) ≤ j) →
      preNorm G spec n j = toneSum spec j + noiseTerm G spec j := by
  have hbval : ∀ k, burstTerm spec n k = mk_burst n spec.samplerate bs bd br 0 1 k := by
    intro k
    unfold burstTerm
    rw [hb]
  constructor
  · unfold preNorm
    rw [hbval i]
    simp only [mk_burst, ite_apply]
    rw [if_pos hlt, if_pos hin, if_true, Complex.ofReal_one, one_mul]
  · intro j hj
    unfold preNorm
    rw [hbval j]
    rw [mk_burst_eq_zero_of_notin n spec.samplerate bs bd br 0 1 j (fun _ => by omega),
      add_zero]

/-- Witness for C1 amended: with no tones and no noise, the sample inside the
burst window equals zero plus zero plus the burst exponential, which is one
at rate zero. -/
theorem burst_superposition_witness : preNorm G0 spec2 1 0 = 1 := by
  have h0 : pytrunc ((0 : ℝ) * spec2.samplerate) = 0 := by
    rw [show ((0 : ℝ) * spec2.samplerate) = (((0 : ℤ)) : ℝ) by norm_num [spec2], pytrunc_intCast]
  have h1 : pytrunc ((1 / 2 : ℝ) * spec2.samplerate) = 1 := by
    rw [show ((1 / 2 : ℝ) * spec2.samplerate) = (((1 : ℤ)) : ℝ) by norm_num [spec2],
      pytrunc_intCast]
  have hmain := (burst_superposition G0 spec2 0 (1 / 2) 0 1 0 rfl
    (by rw [h0]; decide)
    (by rw [h0, h1]; constructor <;> decide)).1
  rw [hmain]
  unfold toneSum noiseTerm
  simp [spec2, Complex.ofReal_zero, mul_zero, zero_mul, Complex.exp_zero]

end IQSim
